import Mathlib

/-!
Verification of the allocation-tracking registry in
`src/Detect_prevent_leak_mry.cpp.cpp`.

The program keeps a global singly-linked list `head` of nodes, each node
holding the pointer returned by `malloc` and the requested size.
`my_malloc` prepends a node on a successful allocation, `my_free` removes
the first node whose pointer matches (or prints an "untracked" message),
and `Report_memory_leaks` walks the list read-only.

The embedding below models addresses as `Nat` (`0` is `NULL`), the linked
list as a `List Node` (head insertion = list prepend), and the raw
allocator as part of the state: `rawLive` is the list of data blocks the
raw allocator currently considers allocated, and `rawCalls` counts every
`malloc`/`free` call made to it (so "no raw-allocator call happens" is the
statement that `rawCalls` is unchanged).  The outcomes of the two `malloc`
calls inside `my_malloc` (the data block and the tracking node) are an
oracle argument `AllocOracle`, since the raw allocator is an external
collaborator.  Console diagnostics are returned as a list of `Diag`
values.
-/

set_option autoImplicit false

namespace MemLeak

/-- Node of the tracking linked list: the allocated pointer and the size,
as in the C `struct Node` (the `next` field becomes the list structure). -/
structure Node where
  ptr : Nat
  size : Nat
deriving DecidableEq

/-- Console diagnostics emitted by the program. -/
inductive Diag where
  | allocFailedMsg
  | trackFailedMsg
  | untrackedFreeMsg (p : Nat)
deriving DecidableEq

/-- Whole-program state: the registry list `head` plus the raw allocator's
view (live data blocks and a count of calls made to it). -/
structure State where
  head : List Node
  rawLive : List Nat
  rawCalls : Nat
deriving DecidableEq

/-- Initial state: empty registry, nothing allocated. -/
def initState : State := { head := [], rawLive := [], rawCalls := 0 }

/-- A successful `malloc(size)` at the raw allocator: the returned address
becomes a live block, one call is made. -/
def raw_malloc (addr : Nat) (s : State) : State :=
  { s with rawLive := addr :: s.rawLive, rawCalls := s.rawCalls + 1 }

/-- A `malloc` call that returns `NULL`: one call, no new live block. -/
def raw_malloc_failed (s : State) : State :=
  { s with rawCalls := s.rawCalls + 1 }

/-- A `free(addr)` call at the raw allocator: the block stops being live,
one call is made. -/
def raw_free (addr : Nat) (s : State) : State :=
  { s with rawLive := s.rawLive.erase addr, rawCalls := s.rawCalls + 1 }

/-- Outcome of the raw-allocator calls inside one `my_malloc` call:
`rawFail` means `malloc(size)` returned `NULL`; `nodeFail addr` means
`malloc(size)` returned `addr` but `malloc(sizeof(Node))` returned `NULL`;
`ok addr` means both succeeded and the data block is at `addr`. -/
inductive AllocOracle where
  | rawFail
  | nodeFail (addr : Nat)
  | ok (addr : Nat)
deriving DecidableEq

/-- The C function `my_malloc`, line by line: size 0 returns `NULL` at
once; a failed `malloc` prints "Memory allocation Failed!" and returns
`NULL`; a failed node `malloc` frees the data block, prints "Memory
allocation for tracking failed!" and returns `NULL`; otherwise the new
node is pushed on `head` and the pointer returned.  Result: returned
pointer, emitted diagnostics, new state. -/
def my_malloc (size : Nat) (orc : AllocOracle) (s : State) :
    Nat × List Diag × State :=
  if size = 0 then
    (0, [], s)
  else
    match orc with
    | .rawFail => (0, [.allocFailedMsg], raw_malloc_failed s)
    | .nodeFail addr =>
        (0, [.trackFailedMsg],
          raw_free addr (raw_malloc_failed (raw_malloc addr s)))
    | .ok addr =>
        let s1 := raw_malloc addr s
        let s2 := { s1 with rawCalls := s1.rawCalls + 1 }
        (addr, [], { s2 with head := ⟨addr, size⟩ :: s2.head })

/-- The traversal of `my_free`: remove the first node whose `ptr` equals
`p`, returning `none` when no node matches (the C `while` loop with the
`previous` pointer). -/
def removeRec (p : Nat) : List Node → Option (List Node)
  | [] => none
  | r :: rest =>
      if r.ptr = p then some rest
      else
        match removeRec p rest with
        | some rest2 => some (r :: rest2)
        | none => none

/-- The C function `my_free`: `NULL` returns at once; a found node is
unlinked, its block and the node itself are freed; otherwise the
"Attempted to free untrack pointer" message is printed and nothing
changes.  Result: emitted diagnostics, new state. -/
def my_free (p : Nat) (s : State) : List Diag × State :=
  if p = 0 then ([], s)
  else
    match removeRec p s.head with
    | some h2 =>
        let s1 := raw_free p s
        ([], { s1 with head := h2, rawCalls := s1.rawCalls + 1 })
    | none => ([.untrackedFreeMsg p], s)

/-- Outcome of `Report_memory_leaks`: either the "No memory leaks
detected." message or the list of printed (address, size) lines. -/
inductive ReportResult where
  | noLeaks
  | leaks (entries : List (Nat × Nat))
deriving DecidableEq

/-- The printing loop of `Report_memory_leaks`: one (address, size) line
per node, in list order. -/
def reportLoop : List Node → List (Nat × Nat)
  | [] => []
  | r :: rest => (r.ptr, r.size) :: reportLoop rest

/-- The C function `Report_memory_leaks`: reads `head`, prints either the
no-leaks message or one line per node, and assigns nothing.  The state is
returned unchanged alongside the produced report. -/
def Report_memory_leaks (s : State) : ReportResult × State :=
  match s.head with
  | [] => (.noLeaks, s)
  | _ => (.leaks (reportLoop s.head), s)

/-- One client-visible operation on the registry. -/
inductive Op where
  | alloc (size : Nat) (orc : AllocOracle)
  | freeOp (p : Nat)
deriving DecidableEq

/-- State transition of one operation (diagnostics and return values are
per-call observations, not state). -/
def step (s : State) : Op → State
  | .alloc size orc => (my_malloc size orc s).2.2
  | .freeOp p => (my_free p s).2

/-- Run a sequence of operations. -/
def run (s : State) : List Op → State
  | [] => s
  | op :: ops => run (step s op) ops

/-- Soundness condition on the oracle: a successful `malloc` returns a
non-`NULL` address that is not currently a live block of the raw
allocator. -/
def validOp (s : State) : Op → Bool
  | .alloc _ orc =>
      match orc with
      | .rawFail => true
      | .nodeFail addr => decide (addr ≠ 0 ∧ addr ∉ s.rawLive)
      | .ok addr => decide (addr ≠ 0 ∧ addr ∉ s.rawLive)
  | .freeOp _ => true

/-- A trace is valid when every oracle answer along it is sound. -/
def validTrace (s : State) : List Op → Bool
  | [] => true
  | op :: ops => validOp s op && validTrace (step s op) ops

/-- Modelled from the spec: one step of the history predicate "address A
was returned by a prior successful allocate and has not since been passed
to a successful free" — a successful allocate of nonzero size adds its
address, a free of a currently-live address removes it. -/
def liveAfter (live : List Nat) : Op → List Nat
  | .alloc size orc =>
      match orc with
      | .ok addr => if size = 0 then live else addr :: live
      | _ => live
  | .freeOp p => if p ∈ live then live.erase p else live

/-- Modelled from the spec: the addresses returned by a prior successful
allocate and not since passed to a successful free, after a trace. -/
def specLiveAddrs (ops : List Op) : List Nat := ops.foldl liveAfter []

/-- Modelled from the spec: the records of all successful allocations of a
trace, in chronological order (so its reverse is reverse-chronological,
most recently allocated first). -/
def allocStep (recs : List Node) : Op → List Node
  | .alloc size (.ok addr) => if size = 0 then recs else recs ++ [⟨addr, size⟩]
  | _ => recs

/-- Modelled from the spec: all records ever created by successful
allocations along a trace, chronologically. -/
def chronAllocs (ops : List Op) : List Node := ops.foldl allocStep []

/-- The alloc phase of the round-trip property: one successful allocation
per (size, address) pair. -/
def allocOps (pairs : List (Nat × Nat)) : List Op :=
  pairs.map fun q => .alloc q.1 (.ok q.2)

/-- Registry invariant relating a state to the spec-level live-address
list: the registry addresses are exactly `live` (same order), they are
pairwise distinct, and each is a non-`NULL` live block of the raw
allocator. -/
def Inv (s : State) (live : List Nat) : Prop :=
  (s.head.map fun r => r.ptr) = live ∧ live.Nodup ∧
    ∀ a ∈ live, a ≠ 0 ∧ a ∈ s.rawLive

/-! ## Helper lemmas -/

theorem reportLoop_eq_map (l : List Node) :
    reportLoop l = l.map fun r => (r.ptr, r.size) := by
  induction l with
  | nil => rfl
  | cons r rest ih => simp [reportLoop, ih]

theorem removeRec_eq_none {p : Nat} {l : List Node}
    (h : ∀ r ∈ l, r.ptr ≠ p) : removeRec p l = none := by
  induction l with
  | nil => rfl
  | cons r rest ih =>
      have hr : r.ptr ≠ p := h r (by simp)
      simp only [removeRec, if_neg hr]
      rw [ih fun q hq => h q (by simp [hq])]

theorem removeRec_found {p : Nat} {l : List Node}
    (h : p ∈ l.map fun r => r.ptr) :
    ∃ pre r post, l = pre ++ r :: post ∧ r.ptr = p ∧
      (∀ q ∈ pre, q.ptr ≠ p) ∧ removeRec p l = some (pre ++ post) := by
  induction l with
  | nil => simp at h
  | cons r rest ih =>
      by_cases hr : r.ptr = p
      · exact ⟨[], r, rest, by simp, hr, by simp, by simp [removeRec, hr]⟩
      · have hmem : p ∈ rest.map fun q => q.ptr := by
          simp only [List.map_cons, List.mem_cons] at h
          exact h.resolve_left fun hh => hr hh.symm
        obtain ⟨pre, q, post, hl, hq, hpre, hrem⟩ := ih hmem
        refine ⟨r :: pre, q, post, by simp [hl], hq, ?_, ?_⟩
        · intro x hx
          rcases List.mem_cons.mp hx with hx | hx
          · exact hx ▸ hr
          · exact hpre x hx
        · simp [removeRec, hr, hrem]

theorem removeRec_map_erase {p : Nat} {l l2 : List Node}
    (hmem : p ∈ l.map fun r => r.ptr)
    (h : removeRec p l = some l2) :
    l2.map (fun r => r.ptr) = (l.map fun r => r.ptr).erase p := by
  obtain ⟨pre, r, post, hl, hq, hpre, hrem⟩ := removeRec_found hmem
  rw [h] at hrem
  obtain rfl : l2 = pre ++ post := Option.some.inj hrem
  have hnp : p ∉ pre.map fun q => q.ptr := by
    intro hc
    obtain ⟨q, hq1, hq2⟩ := List.mem_map.mp hc
    exact hpre q hq1 hq2
  subst hl
  rw [List.map_append, List.map_append, List.map_cons,
      List.erase_append_right _ hnp, hq, List.erase_cons_head]

theorem removeRec_isSome {p : Nat} {l : List Node}
    (h : p ∈ l.map fun r => r.ptr) :
    ∃ l2, removeRec p l = some l2 := by
  obtain ⟨pre, r, post, _, _, _, hrem⟩ := removeRec_found h
  exact ⟨pre ++ post, hrem⟩

theorem removeRec_sublist {p : Nat} {l l2 : List Node}
    (h : removeRec p l = some l2) : l2.Sublist l := by
  induction l generalizing l2 with
  | nil => simp [removeRec] at h
  | cons r rest ih =>
      by_cases hr : r.ptr = p
      · simp only [removeRec, if_pos hr, Option.some.injEq] at h
        exact h ▸ List.sublist_cons_self r rest
      · simp only [removeRec, if_neg hr] at h
        cases hrem : removeRec p rest with
        | none => rw [hrem] at h; exact absurd h (by simp)
        | some rest2 =>
            rw [hrem] at h
            obtain rfl : l2 = r :: rest2 := by injection h.symm
            exact (ih hrem).cons₂ r

theorem run_append (s : State) (l1 l2 : List Op) :
    run s (l1 ++ l2) = run (run s l1) l2 := by
  induction l1 generalizing s with
  | nil => rfl
  | cons op ops ih => simp [run, ih]

theorem inv_init : Inv initState [] :=
  ⟨rfl, List.nodup_nil, by simp⟩

theorem inv_step {s : State} {live : List Nat} {op : Op}
    (hInv : Inv s live) (hv : validOp s op = true) :
    Inv (step s op) (liveAfter live op) := by
  obtain ⟨hmap, hnd, hmem⟩ := hInv
  cases op with
  | alloc size orc =>
      cases orc with
      | rawFail =>
          by_cases hsz : size = 0
          · exact ⟨by simp [step, my_malloc, hsz, liveAfter, hmap], by
              simpa [liveAfter] using hnd, fun a ha => by
                simpa [step, my_malloc, hsz, liveAfter] using
                  hmem a (by simpa [liveAfter] using ha)⟩
          · exact ⟨by simp [step, my_malloc, hsz, raw_malloc_failed,
                liveAfter, hmap], by simpa [liveAfter] using hnd,
              fun a ha => by
                simpa [step, my_malloc, hsz, raw_malloc_failed, liveAfter]
                  using hmem a (by simpa [liveAfter] using ha)⟩
      | nodeFail addr =>
          by_cases hsz : size = 0
          · exact ⟨by simp [step, my_malloc, hsz, liveAfter, hmap], by
              simpa [liveAfter] using hnd, fun a ha => by
                simpa [step, my_malloc, hsz, liveAfter] using
                  hmem a (by simpa [liveAfter] using ha)⟩
          · refine ⟨?_, by simpa [liveAfter] using hnd, ?_⟩
            · simpa [step, my_malloc, hsz, raw_free, raw_malloc_failed,
                raw_malloc, liveAfter] using hmap
            · intro a ha
              have ha' := hmem a (by simpa [liveAfter] using ha)
              simp only [step, my_malloc, if_neg hsz, raw_free,
                raw_malloc_failed, raw_malloc, liveAfter,
                List.erase_cons_head]
              exact ha'
      | ok addr =>
          simp only [validOp, decide_eq_true_eq] at hv
          obtain ⟨haddr0, haddrLive⟩ := hv
          by_cases hsz : size = 0
          · exact ⟨by simp [step, my_malloc, hsz, liveAfter, hmap], by
              simpa [liveAfter, hsz] using hnd, fun a ha => by
                simpa [step, my_malloc, hsz, liveAfter] using
                  hmem a (by simpa [liveAfter, hsz] using ha)⟩
          · have hla : liveAfter live (.alloc size (.ok addr)) =
                addr :: live := by simp [liveAfter, hsz]
            rw [hla]
            refine ⟨?_, ?_, ?_⟩
            · simp [step, my_malloc, hsz, raw_malloc, hmap]
            · refine List.nodup_cons.mpr ⟨fun hc => ?_, hnd⟩
              exact haddrLive (hmem addr hc).2
            · intro a ha
              rcases List.mem_cons.mp ha with rfl | ha
              · exact ⟨haddr0, by simp [step, my_malloc, hsz, raw_malloc]⟩
              · exact ⟨(hmem a ha).1, by
                  simp only [step, my_malloc, if_neg hsz, raw_malloc]
                  exact List.mem_cons_of_mem addr (hmem a ha).2⟩
  | freeOp p =>
      by_cases hp0 : p = 0
      · subst hp0
        have h0live : (0 : Nat) ∉ live := fun hc => (hmem 0 hc).1 rfl
        exact ⟨by simp [step, my_free, liveAfter, h0live, hmap], by
          simpa [liveAfter, h0live] using hnd, fun a ha => by
            simpa [step, my_free, liveAfter] using
              hmem a (by simpa [liveAfter, h0live] using ha)⟩
      · by_cases hpl : p ∈ live
        · have hpm : p ∈ s.head.map fun r => r.ptr := hmap ▸ hpl
          obtain ⟨l2, hrem⟩ := removeRec_isSome hpm
          have hl2 : l2.map (fun r => r.ptr) = live.erase p := by
            rw [removeRec_map_erase hpm hrem, hmap]
          have hla : liveAfter live (.freeOp p) = live.erase p := by
            simp [liveAfter, hpl]
          rw [hla]
          refine ⟨?_, hnd.erase p, ?_⟩
          · simpa [step, my_free, hp0, hrem] using hl2
          · intro a ha
            obtain ⟨hne, hal⟩ := (hnd.mem_erase_iff).mp ha
            refine ⟨(hmem a hal).1, ?_⟩
            simp only [step, my_free, if_neg hp0, hrem, raw_free]
            exact (List.mem_erase_of_ne hne).mpr (hmem a hal).2
        · have hnone : removeRec p s.head = none := by
            refine removeRec_eq_none fun r hr hc => ?_
            exact hpl (hmap ▸ List.mem_map.mpr ⟨r, hr, hc⟩)
          exact ⟨by simp [step, my_free, hp0, hnone, liveAfter, hpl, hmap],
            by simpa [liveAfter, hpl] using hnd, fun a ha => by
              simpa [step, my_free, hp0, hnone, liveAfter] using
                hmem a (by simpa [liveAfter, hpl] using ha)⟩

theorem inv_run {s : State} {live : List Nat} {ops : List Op}
    (hInv : Inv s live) (hv : validTrace s ops = true) :
    Inv (run s ops) (ops.foldl liveAfter live) := by
  induction ops generalizing s live with
  | nil => exact hInv
  | cons op ops ih =>
      simp only [validTrace, Bool.and_eq_true] at hv
      simp only [run, List.foldl_cons]
      exact ih (inv_step hInv hv.1) hv.2

theorem head_sublist_chron {ops : List Op} {s : State} {recs : List Node}
    (h : s.head.Sublist recs.reverse) :
    (run s ops).head.Sublist ((ops.foldl allocStep recs).reverse) := by
  induction ops generalizing s recs with
  | nil => exact h
  | cons op ops ih =>
      simp only [run, List.foldl_cons]
      refine ih ?_
      cases op with
      | alloc size orc =>
          cases orc with
          | rawFail =>
              by_cases hsz : size = 0 <;>
                simpa [step, my_malloc, hsz, allocStep, raw_malloc_failed]
                  using h
          | nodeFail addr =>
              by_cases hsz : size = 0 <;>
                simpa [step, my_malloc, hsz, allocStep, raw_free,
                  raw_malloc_failed, raw_malloc] using h
          | ok addr =>
              by_cases hsz : size = 0
              · simpa [step, my_malloc, hsz, allocStep] using h
              · simp only [step, my_malloc, if_neg hsz, raw_malloc,
                  allocStep, List.reverse_append, List.reverse_cons,
                  List.reverse_nil, List.nil_append, List.cons_append]
                exact h.cons₂ ⟨addr, size⟩
      | freeOp p =>
          simp only [allocStep]
          by_cases hp0 : p = 0
          · simpa [step, my_free, hp0] using h
          · cases hrem : removeRec p s.head with
            | none => simpa [step, my_free, hp0, hrem] using h
            | some l2 =>
                have : (step s (.freeOp p)).head = l2 := by
                  simp [step, my_free, hp0, hrem]
                rw [this]
                exact (removeRec_sublist hrem).trans h

theorem run_allocOps (pairs : List (Nat × Nat)) (s : State)
    (hsz : ∀ q ∈ pairs, q.1 ≠ 0) :
    (run s (allocOps pairs)).head =
      (pairs.map fun q => Node.mk q.2 q.1).reverse ++ s.head := by
  induction pairs generalizing s with
  | nil => simp [allocOps, run]
  | cons q rest ih =>
      have hq : q.1 ≠ 0 := hsz q (by simp)
      have hstep : (step s (.alloc q.1 (.ok q.2))).head =
          ⟨q.2, q.1⟩ :: s.head := by
        simp [step, my_malloc, hq, raw_malloc]
      simp only [allocOps, List.map_cons, run]
      rw [show (run (step s (.alloc q.1 (.ok q.2)))
            (rest.map fun q => Op.alloc q.1 (.ok q.2))) =
          run (step s (.alloc q.1 (.ok q.2))) (allocOps rest) from rfl]
      rw [ih (step s (.alloc q.1 (.ok q.2))) fun x hx => hsz x (by simp [hx])]
      rw [hstep]
      simp

theorem run_frees_empty (ps : List Nat) (s : State)
    (hperm : (s.head.map fun r => r.ptr).Perm ps)
    (hnd : (s.head.map fun r => r.ptr).Nodup)
    (hnz : ∀ a ∈ ps, a ≠ 0) :
    (run s (ps.map Op.freeOp)).head = [] := by
  induction ps generalizing s with
  | nil =>
      have : s.head.map (fun r => r.ptr) = [] := List.Perm.eq_nil hperm
      simpa [run] using List.map_eq_nil_iff.mp this
  | cons p rest ih =>
      have hp : p ∈ s.head.map fun r => r.ptr :=
        hperm.mem_iff.mpr (by simp)
      have hp0 : p ≠ 0 := hnz p (by simp)
      obtain ⟨l2, hrem⟩ := removeRec_isSome hp
      have hstep : (step s (.freeOp p)).head = l2 := by
        simp [step, my_free, hp0, hrem]
      have hl2 : l2.map (fun r => r.ptr) =
          (s.head.map fun r => r.ptr).erase p :=
        removeRec_map_erase hp hrem
      simp only [List.map_cons, run]
      refine ih (step s (.freeOp p)) ?_ ?_ ?_
      · rw [hstep, hl2]
        have := hperm.erase p
        rwa [List.erase_cons_head] at this
      · rw [hstep, hl2]; exact hnd.erase p
      · exact fun a ha => hnz a (by simp [ha])

/-! ## Claim theorems -/

/-- C4: when the raw allocation succeeds but the tracking node cannot be
allocated, `my_malloc` frees the just-obtained block before returning
`NULL`: no record is created (`head` unchanged) and the raw allocator's
set of live blocks is exactly what it was before the call. -/
theorem tracking_failed_releases_block (size addr : Nat) (s : State)
    (h : size ≠ 0) :
    (my_malloc size (.nodeFail addr) s).1 = 0 ∧
    (my_malloc size (.nodeFail addr) s).2.1 = [.trackFailedMsg] ∧
    (my_malloc size (.nodeFail addr) s).2.2.head = s.head ∧
    (my_malloc size (.nodeFail addr) s).2.2.rawLive = s.rawLive := by
  simp [my_malloc, h, raw_malloc, raw_malloc_failed, raw_free]

theorem tracking_failed_releases_block_witness :
    (3 : Nat) ≠ 0 ∧
    ((my_malloc 3 (.nodeFail 7) initState).1 = 0 ∧
     (my_malloc 3 (.nodeFail 7) initState).2.1 = [.trackFailedMsg] ∧
     (my_malloc 3 (.nodeFail 7) initState).2.2.head = initState.head ∧
     (my_malloc 3 (.nodeFail 7) initState).2.2.rawLive = initState.rawLive) :=
  ⟨by decide, tracking_failed_releases_block 3 7 initState (by decide)⟩

/-- C7: `my_malloc 0` is a no-op: it returns the `NULL` sentinel, emits no
diagnostic, leaves the whole state (registry, raw allocator, call count)
untouched, and a subsequent report is unaffected. -/
theorem malloc_zero_noop (orc : AllocOracle) (s : State) :
    my_malloc 0 orc s = (0, [], s) ∧
    (Report_memory_leaks (my_malloc 0 orc s).2.2).1 =
      (Report_memory_leaks s).1 := by
  constructor
  · rfl
  · rfl

/-- C8: `Report_memory_leaks` is read-only: the state after the call is
exactly the state before it, and calling it again straight away yields the
same report. -/
theorem report_read_only (s : State) :
    (Report_memory_leaks s).2 = s ∧
    (Report_memory_leaks (Report_memory_leaks s).2).1 =
      (Report_memory_leaks s).1 := by
  cases h : s.head <;> simp [Report_memory_leaks, h]

/-- C9: freeing the `NULL` sentinel is a silent no-op: no diagnostic, no
record removed, no raw-allocator call, nothing changed at all. -/
theorem free_null_noop (s : State) : my_free 0 s = ([], s) := rfl

/-- C3: freeing a non-`NULL` address with no matching record leaves the
state (registry, raw live blocks, raw call count) exactly as it was and
emits the untracked-free diagnostic; nothing fatal happens, the call
returns normally with the whole state intact. -/
theorem untracked_free_no_mutation (p : Nat) (s : State) (h0 : p ≠ 0)
    (h : ∀ r ∈ s.head, r.ptr ≠ p) :
    my_free p s = ([.untrackedFreeMsg p], s) := by
  simp [my_free, h0, removeRec_eq_none h]

theorem untracked_free_no_mutation_witness :
    (5 : Nat) ≠ 0 ∧
    my_free 5 { head := [⟨7, 4⟩], rawLive := [7], rawCalls := 2 } =
      ([.untrackedFreeMsg 5], { head := [⟨7, 4⟩], rawLive := [7], rawCalls := 2 }) :=
  ⟨by decide,
   untracked_free_no_mutation 5 _ (by decide) (by decide)⟩

/-- C5, counterexample: the value `my_malloc` returns to the caller is the
`NULL` sentinel `0` in all three non-success cases — size-zero request,
raw allocation failure, and tracking failure — so the caller cannot tell
from the returned result alone which of the three occurred. -/
theorem malloc_return_values_all_null :
    (my_malloc 0 (.ok 5) initState).1 = (my_malloc 1 .rawFail initState).1 ∧
    (my_malloc 1 .rawFail initState).1 =
      (my_malloc 1 (.nodeFail 5) initState).1 ∧
    (my_malloc 0 (.ok 5) initState).1 = 0 := by
  decide

/-- C5, amended: the three non-success outcomes are distinguishable by
the diagnostic emitted alongside the returned value (no diagnostic for
size zero, the allocation-failed message for `AllocationFailed`, the
tracking-failed message for `TrackingFailed`), though the returned value
itself is `0` in every one of the three cases. -/
theorem malloc_outcomes_distinguished_by_diag (size addr : Nat)
    (orc : AllocOracle) (s : State) (h : size ≠ 0) :
    ((my_malloc 0 orc s).1 = 0 ∧ (my_malloc size .rawFail s).1 = 0 ∧
      (my_malloc size (.nodeFail addr) s).1 = 0) ∧
    (my_malloc 0 orc s).2.1 ≠ (my_malloc size .rawFail s).2.1 ∧
    (my_malloc 0 orc s).2.1 ≠ (my_malloc size (.nodeFail addr) s).2.1 ∧
    (my_malloc size .rawFail s).2.1 ≠
      (my_malloc size (.nodeFail addr) s).2.1 := by
  simp [my_malloc, h]

theorem malloc_outcomes_distinguished_by_diag_witness :
    (2 : Nat) ≠ 0 ∧
    (((my_malloc 0 .rawFail initState).1 = 0 ∧
      (my_malloc 2 .rawFail initState).1 = 0 ∧
      (my_malloc 2 (.nodeFail 9) initState).1 = 0) ∧
     (my_malloc 0 .rawFail initState).2.1 ≠
       (my_malloc 2 .rawFail initState).2.1 ∧
     (my_malloc 0 .rawFail initState).2.1 ≠
       (my_malloc 2 (.nodeFail 9) initState).2.1 ∧
     (my_malloc 2 .rawFail initState).2.1 ≠
       (my_malloc 2 (.nodeFail 9) initState).2.1) :=
  ⟨by decide,
   malloc_outcomes_distinguished_by_diag 2 9 .rawFail initState (by decide)⟩

/-- C10: a successful free of a tracked address removes exactly the first
record in storage order whose address matches, and every other record
keeps its position: the registry splits as `pre ++ r :: post` with `r` the
first match, and the new registry is `pre ++ post`. -/
theorem free_removes_first_match (p : Nat) (s : State) (h0 : p ≠ 0)
    (h : p ∈ s.head.map fun r => r.ptr) :
    ∃ pre r post, s.head = pre ++ r :: post ∧ r.ptr = p ∧
      (∀ q ∈ pre, q.ptr ≠ p) ∧ (my_free p s).2.head = pre ++ post := by
  obtain ⟨pre, r, post, hl, hq, hpre, hrem⟩ := removeRec_found h
  exact ⟨pre, r, post, hl, hq, hpre, by simp [my_free, h0, hrem]⟩

/-- C2: in every state reachable by a valid trace from the empty initial
registry, a record with address `A` exists if and only if `A` was returned
by a prior successful allocate and has not since been passed to a
successful free (the spec-level history `specLiveAddrs`), and the registry
never holds two records with the same address. -/
theorem registry_live_iff_history (ops : List Op) (A : Nat)
    (hv : validTrace initState ops = true) :
    ((∃ r ∈ (run initState ops).head, r.ptr = A) ↔ A ∈ specLiveAddrs ops) ∧
    ((run initState ops).head.map fun r => r.ptr).Nodup := by
  obtain ⟨hmap, hnd, -⟩ := inv_run inv_init hv
  rw [show specLiveAddrs ops = ops.foldl liveAfter [] from rfl]
  constructor
  · rw [← hmap, List.mem_map]
  · rw [hmap]; exact hnd

theorem registry_live_iff_history_witness :
    validTrace initState
      [.alloc 4 (.ok 10), .alloc 6 (.ok 20), .freeOp 10] = true ∧
    (((∃ r ∈ (run initState
        [.alloc 4 (.ok 10), .alloc 6 (.ok 20), .freeOp 10]).head,
        r.ptr = 20) ↔
      20 ∈ specLiveAddrs
        [.alloc 4 (.ok 10), .alloc 6 (.ok 20), .freeOp 10]) ∧
     ((run initState
        [.alloc 4 (.ok 10), .alloc 6 (.ok 20), .freeOp 10]).head.map
        fun r => r.ptr).Nodup) :=
  ⟨by decide,
   registry_live_iff_history
     [.alloc 4 (.ok 10), .alloc 6 (.ok 20), .freeOp 10] 20 (by decide)⟩

/-- C6: after any trace from the initial state, the report is the no-leaks
result exactly when no live record exists; otherwise it lists exactly the
live records, each as its (address, size) pair, in registry order; and the
registry order is a sublist of the reverse-chronological sequence of all
successful allocations, so the surviving records are reported most
recently allocated first. -/
theorem report_enumerates_live_records (ops : List Op) :
    ((Report_memory_leaks (run initState ops)).1 = .noLeaks ↔
      (run initState ops).head = []) ∧
    ((Report_memory_leaks (run initState ops)).1 = .noLeaks ∨
     (Report_memory_leaks (run initState ops)).1 =
       .leaks ((run initState ops).head.map fun r => (r.ptr, r.size))) ∧
    ((run initState ops).head.map fun r => (r.ptr, r.size)).Sublist
      ((chronAllocs ops).reverse.map fun r => (r.ptr, r.size)) := by
  refine ⟨?_, ?_, ?_⟩
  · cases h : (run initState ops).head with
    | nil => simp [Report_memory_leaks, h]
    | cons r rest => simp [Report_memory_leaks, h]
  · cases h : (run initState ops).head with
    | nil => exact Or.inl (by simp [Report_memory_leaks, h])
    | cons r rest =>
        refine Or.inr ?_
        rw [← h]
        cases h2 : (run initState ops).head with
        | nil => rw [h2] at h; exact absurd h (by simp)
        | cons q qs =>
            simp only [Report_memory_leaks, h2, ReportResult.leaks.injEq]
            rw [← h2, reportLoop_eq_map]
  · refine List.Sublist.map _ ?_
    exact head_sublist_chron (by simp [initState])

/-- C1: any sequence of successful allocations of nonzero sizes at fresh
distinct addresses, followed by a free of every returned address in any
order with no duplicates, leaves the registry empty: the final report is
the no-leaks result. -/
theorem round_trip_no_leaks (pairs : List (Nat × Nat)) (frees : List Nat)
    (hsz : ∀ q ∈ pairs, q.1 ≠ 0)
    (hnz : ∀ q ∈ pairs, q.2 ≠ 0)
    (hnd : (pairs.map Prod.snd).Nodup)
    (hperm : (pairs.map Prod.snd).Perm frees) :
    (Report_memory_leaks
      (run initState (allocOps pairs ++ frees.map Op.freeOp))).1 =
      .noLeaks := by
  rw [run_append]
  have hhead := run_allocOps pairs initState hsz
  have hmap : ((run initState (allocOps pairs)).head.map fun r => r.ptr) =
      (pairs.map Prod.snd).reverse := by
    rw [hhead]
    simp only [initState, List.append_nil, List.map_reverse, List.map_map]
    rfl
  have hempty : (run (run initState (allocOps pairs))
      (frees.map Op.freeOp)).head = [] := by
    refine run_frees_empty frees _ ?_ ?_ ?_
    · rw [hmap]
      exact (List.reverse_perm _).trans hperm
    · rw [hmap]
      exact List.nodup_reverse.mpr hnd
    · intro a ha
      obtain ⟨q, hq, rfl⟩ :=
        List.mem_map.mp (hperm.mem_iff.mpr ha)
      exact hnz q hq
  simp [Report_memory_leaks, hempty]

theorem round_trip_no_leaks_witness :
    (∀ q ∈ ([(10, 100), (20, 200)] : List (Nat × Nat)), q.1 ≠ 0) ∧
    (∀ q ∈ ([(10, 100), (20, 200)] : List (Nat × Nat)), q.2 ≠ 0) ∧
    (([(10, 100), (20, 200)] : List (Nat × Nat)).map Prod.snd).Nodup ∧
    (([(10, 100), (20, 200)] : List (Nat × Nat)).map Prod.snd).Perm
      [200, 100] ∧
    (Report_memory_leaks
      (run initState
        (allocOps [(10, 100), (20, 200)] ++
          ([200, 100] : List Nat).map Op.freeOp))).1 = .noLeaks :=
  ⟨by decide, by decide, by decide, by decide,
   round_trip_no_leaks [(10, 100), (20, 200)] [200, 100]
     (by decide) (by decide) (by decide) (by decide)⟩

theorem free_removes_first_match_witness :
    (7 : Nat) ≠ 0 ∧
    7 ∈ ([⟨3, 1⟩, ⟨7, 2⟩, ⟨7, 5⟩] : List Node).map (fun r => r.ptr) ∧
    (∃ pre r post,
      ([⟨3, 1⟩, ⟨7, 2⟩, ⟨7, 5⟩] : List Node) = pre ++ r :: post ∧
      r.ptr = 7 ∧ (∀ q ∈ pre, q.ptr ≠ 7) ∧
      (my_free 7 { head := [⟨3, 1⟩, ⟨7, 2⟩, ⟨7, 5⟩], rawLive := [3, 7],
                   rawCalls := 6 }).2.head = pre ++ post) :=
  ⟨by decide, by decide,
   free_removes_first_match 7
     { head := [⟨3, 1⟩, ⟨7, 2⟩, ⟨7, 5⟩], rawLive := [3, 7], rawCalls := 6 }
     (by decide) (by decide)⟩

end MemLeak
